import Mathlib

/-!
Verification of the notebook-kit document model, database client, and
reactive runtime contract.

The document-model and database-client definitions are translated from the
TypeScript source (`lib/notebook.ts`, `runtime/stdlib/databaseClient.ts`,
`databases/index.ts`).  The reactive runtime core (Variable, Graph,
Scheduler, observer bridge) is not part of the visible source tree; its
definitions are modelled from the specification, as indicated by their doc
comments.
-/

namespace NotebookKit

/-! ## Document model (`toCell`, from the notebook source) -/

/-- Cell evaluation modes, from the source's `CellSpec.mode` union type. -/
inductive CellMode
  | js
  | ojs
  | md
  | html
  | tex
  | dot
  | sql
  deriving DecidableEq, Repr

/-- A JavaScript `Date`: either an existing `Date` value, or one constructed
by `new Date(...)` from a number of milliseconds or from a string. -/
inductive JsDate
  | fromMillis (ms : Int)
  | parsed (s : String)
  deriving DecidableEq, Repr

/-- The source's `Date | string | number` input accepted by `asDate`. -/
inductive DateSpec
  | date (d : JsDate)
  | str (s : String)
  | num (n : Int)
  deriving DecidableEq, Repr

/-- Source `asDate`: returns the value unchanged when it is already a `Date`,
otherwise constructs a `Date` from it. -/
def asDate : DateSpec → JsDate
  | .date d => d
  | .str s => .parsed s
  | .num n => .fromMillis n

/-- Source `CellSpec`: all fields other than `id` are optional
(`none` models JavaScript `undefined`). -/
structure CellSpec where
  id : Int
  value : Option String := none
  mode : Option CellMode := none
  pinned : Option Bool := none
  hidden : Option Bool := none
  output : Option String := none
  database : Option String := none
  since : Option DateSpec := none
  deriving DecidableEq, Repr

/-- Source `Cell`: the materialized cell with defaults applied. -/
structure Cell where
  id : Int
  value : String
  mode : CellMode
  pinned : Bool
  hidden : Bool
  output : Option String
  database : Option String
  since : Option JsDate
  deriving DecidableEq, Repr

/-- Source `defaultPinned`: js, sql and ojs cells are pinned by default. -/
def defaultPinned (mode : CellMode) : Bool :=
  mode == .js || mode == .sql || mode == .ojs

/-- Source `toCell`: applies the destructuring defaults
(`value = ""`, `mode = "js"`, `pinned = defaultPinned(mode)`,
`hidden = false`, `database = mode === "sql" ? "var:db" : undefined`) and
builds the cell, clearing `database` for non-sql modes and converting
`since` via `asDate` when present. -/
def toCell (spec : CellSpec) : Cell :=
  let mode := spec.mode.getD .js
  let database : Option String :=
    match spec.database with
    | some d => some d
    | none => if mode = .sql then some "var:db" else none
  { id := spec.id
    value := spec.value.getD ""
    mode := mode
    pinned := spec.pinned.getD (defaultPinned mode)
    hidden := spec.hidden.getD false
    output := spec.output
    database := if mode = .sql then database else none
    since := spec.since.map asDate }

/-! ## Database client (`runtime/stdlib/databaseClient.ts`) -/

/-- A JavaScript value that may be `null` (as distinct from `undefined`,
which is modelled by an enclosing `Option`). -/
inductive NullOr (α : Type)
  | null
  | val (a : α)
  deriving DecidableEq, Repr

/-- Source `QueryOptionsSpec`: `since` and `maxAge` may each be absent,
`null`, or a value. -/
structure QueryOptionsSpec where
  since : Option (NullOr DateSpec) := none
  maxAge : Option (NullOr Int) := none
  deriving DecidableEq, Repr

/-- Source `QueryOptions`: the normalized form, with `since` a `Date`. -/
structure QueryOptions where
  since : Option (NullOr JsDate) := none
  maxAge : Option (NullOr Int) := none
  deriving DecidableEq, Repr

/-- Source `normalizeQueryOptions`: copies each present field, sending
`null` to `null`, converting `since` with `new Date(...)` and `maxAge`
with `Number(...)` (the identity on numbers). -/
def normalizeQueryOptions (spec : Option QueryOptionsSpec) : QueryOptions :=
  let s := spec.getD {}
  { since := s.since.map (fun v => match v with | .null => .null | .val d => .val (asDate d))
    maxAge := s.maxAge.map (fun v => match v with | .null => .null | .val n => .val n) }

/-- A word character of the JavaScript regular-expression class `\w`
(no unicode flag): ASCII letters, digits, and underscore. -/
def isWordChar (c : Char) : Bool :=
  ('a' ≤ c && c ≤ 'z') || ('A' ≤ c && c ≤ 'Z') || ('0' ≤ c && c ≤ '9') || c == '_'

/-- Semantics of the source's test `/^[\w-]+$/.test(name)`: the whole
string is one or more characters, each a word character or a hyphen. -/
def testWordHyphen (name : String) : Bool :=
  !name.data.isEmpty && name.data.all (fun c => isWordChar c || c == '-')

/-- Source `DatabaseClient` interface: a name plus normalized options. -/
structure DatabaseClient where
  name : String
  options : QueryOptions
  deriving DecidableEq, Repr

/-- Source `DatabaseClient` constructor function: throws
`invalid database: ...` when the name fails the pattern test, otherwise
returns a client with the given name and the normalized query options. -/
def DatabaseClient.create (name : String) (options : Option QueryOptionsSpec) :
    Except String DatabaseClient :=
  if testWordHyphen name then .ok { name := name, options := normalizeQueryOptions options }
  else .error ("invalid database: " ++ name)

/-- The claim's reading of the pattern `/^[\w-]+$/`: one or more
characters, each a word character or a hyphen. -/
def matchesNamePattern (name : String) : Prop :=
  name.data ≠ [] ∧ ∀ c ∈ name.data, isWordChar c = true ∨ c = '-'

instance (name : String) : Decidable (matchesNamePattern name) := by
  unfold matchesNamePattern; infer_instance

theorem testWordHyphen_iff (name : String) :
    testWordHyphen name = true ↔ matchesNamePattern name := by
  simp [testWordHyphen, matchesNamePattern, List.isEmpty_iff, List.all_eq_true]

/-! ## Claim theorems for the document model and database client -/

/-- C9: for every `CellSpec`, `toCell` returns a cell whose `database`
field is `undefined` whenever the mode is not `"sql"`, even if a database
was supplied; for a `"sql"` cell with no database supplied, the returned
`database` is `"var:db"`. -/
theorem toCell_database_spec (s : CellSpec) :
    ((toCell s).mode ≠ CellMode.sql → (toCell s).database = none) ∧
    (s.mode = some CellMode.sql → s.database = none →
      (toCell s).database = some "var:db") := by
  constructor
  · intro h
    simp only [toCell] at h ⊢
    split
    · exact absurd (by assumption) h
    · rfl
  · intro hm hd
    simp [toCell, hm, hd]

theorem toCell_database_spec_witness :
    (toCell { id := 1, mode := some CellMode.md, database := some "x" }).database = none ∧
    (toCell { id := 2, mode := some CellMode.sql }).database = some "var:db" :=
  ⟨(toCell_database_spec _).1 (by decide),
   (toCell_database_spec { id := 2, mode := some CellMode.sql }).2 rfl rfl⟩

/-- C10: the `DatabaseClient` constructor function throws exactly when the
supplied name does not match `/^[\w-]+$/`; for every matching name it
returns a client whose `name` is the supplied name and whose `options` are
the normalized query options. -/
theorem databaseClient_create_spec (name : String) (opts : Option QueryOptionsSpec) :
    ((∃ msg, DatabaseClient.create name opts = .error msg) ↔ ¬ matchesNamePattern name) ∧
    (matchesNamePattern name →
      DatabaseClient.create name opts =
        .ok { name := name, options := normalizeQueryOptions opts }) := by
  constructor
  · constructor
    · rintro ⟨msg, hmsg⟩ hpat
      rw [← testWordHyphen_iff] at hpat
      simp [DatabaseClient.create, hpat] at hmsg
    · intro hpat
      rw [← testWordHyphen_iff] at hpat
      refine ⟨"invalid database: " ++ name, ?_⟩
      simp [DatabaseClient.create, hpat]
  · intro hpat
    rw [← testWordHyphen_iff] at hpat
    simp [DatabaseClient.create, hpat]

theorem databaseClient_create_spec_witness :
    DatabaseClient.create "duckdb" none =
      .ok { name := "duckdb", options := normalizeQueryOptions none } ∧
    ¬ matchesNamePattern "" :=
  ⟨(databaseClient_create_spec "duckdb" none).2 (by decide),
   (databaseClient_create_spec "" none).1.mp ⟨"invalid database: ", rfl⟩⟩

namespace Runtime

/-! ## Reactive runtime core, modelled from the specification

The Variable/Graph/Scheduler core is not part of the visible source tree;
every definition in this namespace is modelled from the specification's
description of it. -/

abbrev Name := String

variable {α ε : Type}

/-- Modelled from the spec (§4.4; runtime core missing from the source):
lifecycle transitions delivered to observers. -/
inductive Transition (α ε : Type)
  | pending
  | fulfilled (v : α)
  | rejected (e : ε)
  deriving DecidableEq, Repr

/-- Modelled from the spec (§4.1): the terminal transition for a settled
computation result. -/
def terminalOf : Except ε α → Transition α ε
  | .ok v => .fulfilled v
  | .error e => .rejected e

/-- Modelled from the spec (§3; runtime core missing from the source): the
per-Variable runtime state relevant to staleness — the monotonically
increasing `generation` counter and the last committed result. -/
structure VarState (α ε : Type) where
  generation : Nat
  value : Option (Except ε α)
  deriving Repr

/-- Modelled from the spec (§4.1, §8): the events affecting one Variable —
a redefinition or an invalidation (each increments the generation,
superseding any in-flight computation), and the settling of a computation
carrying the generation it captured when it started. -/
inductive VarEvent (α ε : Type)
  | redefine
  | invalidate
  | settle (tag : Nat) (result : Except ε α)
  deriving Repr

/-- Modelled from the spec (§4.1): one step of a Variable's life.
Redefinition and invalidation increment `generation`; a settling
computation is committed — its result stored and the terminal transition
delivered to observers — only when the generation it captured still matches
the Variable's current generation, and is silently discarded otherwise. -/
def varStep (s : VarState α ε) : VarEvent α ε → VarState α ε × List (Transition α ε)
  | .redefine => ({ s with generation := s.generation + 1 }, [])
  | .invalidate => ({ s with generation := s.generation + 1 }, [])
  | .settle tag r =>
      if tag = s.generation then ({ s with value := some r }, [terminalOf r])
      else (s, [])

/-- Modelled from the spec: a Variable's whole trace — the final state and
the concatenated observer deliveries. -/
def varRun (s : VarState α ε) : List (VarEvent α ε) → VarState α ε × List (Transition α ε)
  | [] => (s, [])
  | e :: es =>
      ((varRun (varStep s e).1 es).1, (varStep s e).2 ++ (varRun (varStep s e).1 es).2)

theorem generation_le_varStep (s : VarState α ε) (e : VarEvent α ε) :
    s.generation ≤ (varStep s e).1.generation := by
  cases e with
  | redefine => exact Nat.le_succ _
  | invalidate => exact Nat.le_succ _
  | settle tag r =>
      simp only [varStep]
      split <;> exact Nat.le_refl _

theorem generation_le_varRun (tr : List (VarEvent α ε)) (s : VarState α ε) :
    s.generation ≤ (varRun s tr).1.generation := by
  induction tr generalizing s with
  | nil => exact Nat.le_refl _
  | cons e es ih =>
      exact Nat.le_trans (generation_le_varStep s e) (ih (varStep s e).1)

theorem varRun_append (s : VarState α ε) (xs ys : List (VarEvent α ε)) :
    varRun s (xs ++ ys) =
      ((varRun (varRun s xs).1 ys).1,
       (varRun s xs).2 ++ (varRun (varRun s xs).1 ys).2) := by
  induction xs generalizing s with
  | nil => simp [varRun]
  | cons e es ih =>
      simp [varRun, ih, List.append_assoc]

/-! ## Graph and cycle detection (spec §4.2) -/

/-- Modelled from the spec (§3 Graph; runtime core missing from the
source): the Graph maps each output name to the defining Variable's
resolved input names. -/
abbrev Graph := List (Name × List Name)

/-- The input names of the Variable providing `n` (empty when `n` is not
yet defined: a forward reference has no input edges yet). -/
def inputsOf : Graph → Name → List Name
  | [], _ => []
  | (m, ins) :: rest, n => if m = n then ins else inputsOf rest n

/-- Modelled from the spec (§3): redefining a name replaces the previous
Variable's definition in place; a fresh name is appended. -/
def insertDef (g : Graph) (n : Name) (ins : List Name) : Graph :=
  if n ∈ g.map Prod.fst then g.map (fun p => if p.1 = n then (n, ins) else p)
  else g ++ [(n, ins)]

/-- Ground-truth reachability through input edges: `Reach g a b` holds when
`b` can be reached from `a` by following one or more input edges. -/
inductive Reach (g : Graph) : Name → Name → Prop
  | single {a b : Name} : b ∈ inputsOf g a → Reach g a b
  | step {a b c : Name} : b ∈ inputsOf g a → Reach g b c → Reach g a c

theorem Reach.extend {g : Graph} {a b c : Name} (h : Reach g a b)
    (hc : c ∈ inputsOf g b) : Reach g a c := by
  induction h with
  | single hab => exact Reach.step hab (Reach.single hc)
  | step hab _ ih => exact Reach.step hab (ih hc)

/-- All names that occur as an input of some definition; reachability
through input edges never leaves this set. -/
def inputNames (g : Graph) : Finset Name :=
  (g.flatMap Prod.snd).toFinset

/-- One round of the reachability check: keep the frontier and add every
input of a frontier member. -/
def expand (g : Graph) (S : Finset Name) : Finset Name :=
  S ∪ S.biUnion (fun n => (inputsOf g n).toFinset)

/-- Iterated expansion, fuelled. -/
def saturate (g : Graph) : Nat → Finset Name → Finset Name
  | 0, S => S
  | fuel + 1, S => saturate g fuel (expand g S)

/-- The set of names reachable from `a` through one or more input edges,
computed by saturating with enough fuel to reach the fixed point. -/
def reachSet (g : Graph) (a : Name) : Finset Name :=
  saturate g (inputNames g).card (inputsOf g a).toFinset

/-- Modelled from the spec (§4.2): the executable reachability check used
by cycle detection. -/
def reachesB (g : Graph) (a b : Name) : Bool :=
  decide (b ∈ reachSet g a)

/-- Modelled from the spec (§7): the define-time cycle error, identifying
the cycle's member names. -/
structure CyclicDefinitionError where
  members : List Name
  deriving Repr

/-- Modelled from the spec (§4.2): `define` inserts or replaces the
Variable for `n`, then performs a reachability check from the new Variable
through its input edges; if the new Variable is reachable from itself, the
define fails with a `CyclicDefinitionError` identifying the cycle's member
names and the Graph is left unchanged (atomic failure). -/
def defineVar (g : Graph) (n : Name) (ins : List Name) :
    Graph × Option CyclicDefinitionError :=
  let g2 := insertDef g n ins
  if reachesB g2 n n then
    (g, some ⟨n :: (g2.flatMap Prod.snd).filter (fun m => reachesB g2 n m && reachesB g2 m n)⟩)
  else (g2, none)

/-- A sequence of defines, returning the final graph and each call's
error outcome. -/
def defineRun (g : Graph) : List (Name × List Name) → Graph × List (Option CyclicDefinitionError)
  | [] => (g, [])
  | (n, ins) :: rest =>
      ((defineRun (defineVar g n ins).1 rest).1,
       (defineVar g n ins).2 :: (defineRun (defineVar g n ins).1 rest).2)

/-- A definition sequence is acyclic when no step makes its new Variable
reachable from itself through input edges. -/
def AcyclicSeq (g : Graph) : List (Name × List Name) → Prop
  | [] => True
  | (n, ins) :: rest =>
      ¬ Reach (insertDef g n ins) n n ∧ AcyclicSeq (insertDef g n ins) rest

theorem mem_inputsOf_flatMap {g : Graph} {n x : Name} (h : x ∈ inputsOf g n) :
    x ∈ g.flatMap Prod.snd := by
  induction g with
  | nil => cases h
  | cons p rest ih =>
      obtain ⟨m, ins⟩ := p
      simp only [inputsOf] at h
      by_cases hm : m = n
      · rw [if_pos hm] at h
        simp [List.flatMap_cons, h]
      · rw [if_neg hm] at h
        simp [List.flatMap_cons, ih h]

theorem mem_expand {g : Graph} {S : Finset Name} {x : Name} :
    x ∈ expand g S ↔ x ∈ S ∨ ∃ y ∈ S, x ∈ inputsOf g y := by
  simp [expand, Finset.mem_union, Finset.mem_biUnion, List.mem_toFinset]

theorem subset_expand {g : Graph} {S : Finset Name} : S ⊆ expand g S :=
  Finset.subset_union_left

theorem expand_subset_univ {g : Graph} {S : Finset Name}
    (hS : S ⊆ inputNames g) : expand g S ⊆ inputNames g := by
  intro x hx
  rcases mem_expand.mp hx with h | ⟨y, _, hxy⟩
  · exact hS h
  · exact List.mem_toFinset.mpr (mem_inputsOf_flatMap hxy)

theorem subset_saturate {g : Graph} (fuel : Nat) (S : Finset Name) :
    S ⊆ saturate g fuel S := by
  induction fuel generalizing S with
  | zero => exact Finset.Subset.refl S
  | succ k ih => exact Finset.Subset.trans subset_expand (ih (expand g S))

theorem saturate_subset_univ {g : Graph} (fuel : Nat) (S : Finset Name)
    (hS : S ⊆ inputNames g) : saturate g fuel S ⊆ inputNames g := by
  induction fuel generalizing S with
  | zero => exact hS
  | succ k ih => exact ih (expand g S) (expand_subset_univ hS)

theorem saturate_of_fix {g : Graph} (fuel : Nat) {S : Finset Name}
    (hfix : expand g S = S) : saturate g fuel S = S := by
  induction fuel with
  | zero => rfl
  | succ k ih => simp only [saturate, hfix, ih]

theorem expand_saturate_eq {g : Graph} (fuel : Nat) (S : Finset Name)
    (hS : S ⊆ inputNames g) (hcard : (inputNames g).card ≤ fuel + S.card) :
    expand g (saturate g fuel S) = saturate g fuel S := by
  induction fuel generalizing S with
  | zero =>
      have heq : S = inputNames g := Finset.eq_of_subset_of_card_le hS (by omega)
      simp only [saturate]
      rw [heq]
      exact Finset.Subset.antisymm (expand_subset_univ (Finset.Subset.refl _)) subset_expand
  | succ k ih =>
      by_cases hfix : expand g S = S
      · simp only [saturate, hfix, saturate_of_fix k hfix]
      · have hsub : S ⊂ expand g S := Finset.ssubset_iff_subset_ne.mpr ⟨subset_expand, Ne.symm hfix⟩
        have hlt : S.card < (expand g S).card := Finset.card_lt_card hsub
        exact ih (expand g S) (expand_subset_univ hS) (by omega)

theorem reach_of_mem_saturate {g : Graph} {src : Name} (fuel : Nat) (S : Finset Name)
    (hS : ∀ x ∈ S, Reach g src x) : ∀ x ∈ saturate g fuel S, Reach g src x := by
  induction fuel generalizing S with
  | zero => exact hS
  | succ k ih =>
      refine ih (expand g S) ?_
      intro x hx
      rcases mem_expand.mp hx with h | ⟨y, hy, hxy⟩
      · exact hS x h
      · exact Reach.extend (hS y hy) hxy

theorem mem_reachSet_of_reach {g : Graph} {src b : Name} (h : Reach g src b) :
    b ∈ reachSet g src := by
  have hS0 : ((inputsOf g src).toFinset : Finset Name) ⊆ inputNames g := by
    intro x hx
    exact List.mem_toFinset.mpr (mem_inputsOf_flatMap (List.mem_toFinset.mp hx))
  have hfix : expand g (reachSet g src) = reachSet g src :=
    expand_saturate_eq (inputNames g).card (inputsOf g src).toFinset hS0 (by omega)
  have hbase : ((inputsOf g src).toFinset : Finset Name) ⊆ reachSet g src :=
    subset_saturate (inputNames g).card (inputsOf g src).toFinset
  have hclosed : ∀ y ∈ reachSet g src, ∀ x ∈ inputsOf g y, x ∈ reachSet g src := by
    intro y hy x hx
    rw [← hfix]
    exact mem_expand.mpr (Or.inr ⟨y, hy, hx⟩)
  have hgen : ∀ a c, Reach g a c → a = src ∨ a ∈ reachSet g src → c ∈ reachSet g src := by
    intro a c hr
    induction hr with
    | single hab =>
        rintro (rfl | ha)
        · exact hbase (List.mem_toFinset.mpr hab)
        · exact hclosed _ ha _ hab
    | step hab _ ih =>
        rintro (rfl | ha)
        · exact ih (Or.inr (hbase (List.mem_toFinset.mpr hab)))
        · exact ih (Or.inr (hclosed _ ha _ hab))
  exact hgen src b h (Or.inl rfl)

theorem reachesB_iff {g : Graph} {a b : Name} : reachesB g a b = true ↔ Reach g a b := by
  constructor
  · intro h
    have hb : b ∈ reachSet g a := by simpa [reachesB] using h
    refine reach_of_mem_saturate (inputNames g).card (inputsOf g a).toFinset ?_ b hb
    intro x hx
    exact Reach.single (List.mem_toFinset.mp hx)
  · intro h
    simp [reachesB, mem_reachSet_of_reach h]

theorem defineVar_of_not_reach {g : Graph} {n : Name} {ins : List Name}
    (h : ¬ Reach (insertDef g n ins) n n) :
    defineVar g n ins = (insertDef g n ins, none) := by
  have hb : reachesB (insertDef g n ins) n n = false := by
    rw [Bool.eq_false_iff]
    intro hh
    exact h (reachesB_iff.mp hh)
  simp [defineVar, hb]

theorem acyclicSeq_no_error (defs : List (Name × List Name)) (g : Graph)
    (h : AcyclicSeq g defs) : ∀ e ∈ (defineRun g defs).2, e = none := by
  induction defs generalizing g with
  | nil =>
      intro e he
      cases he
  | cons p rest ih =>
      obtain ⟨n, ins⟩ := p
      obtain ⟨h1, h2⟩ := h
      intro e he
      simp only [defineRun, defineVar_of_not_reach h1] at he
      rcases List.mem_cons.mp he with rfl | hmem
      · rfl
      · exact ih (insertDef g n ins) h2 e hmem

theorem not_reach_of_no_inputs {g : Graph} {a c : Name} (h : inputsOf g a = []) :
    ¬ Reach g a c := by
  intro hr
  cases hr with
  | single hab => rw [h] at hab; cases hab
  | step hab _ => rw [h] at hab; cases hab

/-! ## Pending-invalidation set (spec §4.3 step 1) -/

/-- Modelled from the spec (§4.3 step 1; runtime core missing from the
source): the pending-invalidation set is a queue deduplicated by Variable
identity — invalidating a Variable already pending is a no-op, otherwise
the Variable is enqueued. -/
def invalidate (pending : List Name) (v : Name) : List Name :=
  if v ∈ pending then pending else pending ++ [v]

/-! ## Rejection propagation (spec §4.1 recomputation, §7) -/

/-- Modelled from the spec (§7; runtime core missing from the source): a
Variable's error — its own compute failure (`ComputeError`), or a
`DependencyError` wrapping a rejected input's error. -/
inductive VErr (ε : Type)
  | computeErr (e : ε)
  | dependency (inner : VErr ε)
  deriving Repr

/-- Modelled from the spec (§3): a settled Variable state. -/
inductive VSt (α ε : Type)
  | fulfilled (v : α)
  | rejected (e : VErr ε)
  deriving Repr

/-- The origin error at the bottom of a chain of dependency wrappers. -/
def rootErr : VErr ε → ε
  | .computeErr e => e
  | .dependency inner => rootErr inner

/-- The first rejected input's error, if any input is rejected. -/
def firstRejected : List (VSt α ε) → Option (VErr ε)
  | [] => none
  | .fulfilled _ :: rest => firstRejected rest
  | .rejected e :: _ => some e

/-- The fulfilled input values. -/
def valuesOf (inputs : List (VSt α ε)) : List α :=
  inputs.filterMap (fun s => match s with | .fulfilled v => some v | .rejected _ => none)

/-- Modelled from the spec (§4.1 Recomputation): if any input is
`rejected`, the Variable transitions directly to `rejected` with a
dependency error, without invoking `compute`; otherwise `compute` is
invoked on the input values. The Boolean records whether `compute` was
invoked. -/
def recomputeNode (inputs : List (VSt α ε)) (compute : List α → Except ε α) :
    VSt α ε × Bool :=
  match firstRejected inputs with
  | some e => (.rejected (.dependency e), false)
  | none =>
      (match compute (valuesOf inputs) with
       | .ok v => .fulfilled v
       | .error e => .rejected (.computeErr e), true)

/-- Modelled from the spec (§4.3): one scheduling pass over a closure
already listed in dependency order, recomputing each Variable from its
inputs' current states. -/
def processClosure (compute : Name → List α → Except ε α) :
    List (Name × List Name) → (Name → VSt α ε) → Name → VSt α ε
  | [], env => env
  | (n, ins) :: rest, env =>
      processClosure compute rest
        (fun m => if m = n then (recomputeNode (ins.map env) (compute n)).1 else env m)

/-- The closure is listed in dependency order: each Variable's inputs name
already-settled Variables, and its own name is fresh. -/
def TopoClosed (avail : List Name) : List (Name × List Name) → Prop
  | [] => True
  | (n, ins) :: rest => (∀ i ∈ ins, i ∈ avail) ∧ n ∉ avail ∧ TopoClosed (n :: avail) rest

/-- The settled-state description used in the rejection-propagation
invariant: the origin holds its own compute error; every Variable reaching
the origin through input edges is rejected with a dependency wrapping
rooted at the origin's error; every other Variable is fulfilled. -/
def Pst (g : Graph) (origin : Name) (e0 : ε) (env : Name → VSt α ε) (a : Name) : Prop :=
  (a = origin → env a = VSt.rejected (VErr.computeErr e0)) ∧
  (a ≠ origin → Reach g a origin →
    ∃ err, env a = VSt.rejected err ∧ rootErr err = e0 ∧ ∃ inner, err = VErr.dependency inner) ∧
  (a ≠ origin → ¬ Reach g a origin → ∃ v, env a = VSt.fulfilled v)

theorem Pst_congr {g : Graph} {origin : Name} {e0 : ε} {env env2 : Name → VSt α ε}
    {a : Name} (h : env2 a = env a) (hP : Pst g origin e0 env a) :
    Pst g origin e0 env2 a := by
  unfold Pst at hP ⊢
  rw [h]
  exact hP

theorem topoClosed_keys :
    ∀ {nodes : List (Name × List Name)} {avail : List Name}, TopoClosed avail nodes →
    (nodes.map Prod.fst).Nodup ∧ ∀ k ∈ nodes.map Prod.fst, k ∉ avail := by
  intro nodes
  induction nodes with
  | nil => intro avail _; exact ⟨List.nodup_nil, by simp⟩
  | cons p rest ih =>
      intro avail h
      obtain ⟨n, ins⟩ := p
      obtain ⟨h1, h2, h3⟩ := h
      obtain ⟨ihn, iha⟩ := ih h3
      constructor
      · simp only [List.map_cons, List.nodup_cons]
        exact ⟨fun hmem => iha n hmem (by simp), ihn⟩
      · intro k hk
        simp only [List.map_cons, List.mem_cons] at hk
        rcases hk with rfl | hk
        · exact h2
        · exact fun hka => iha k hk (List.mem_cons_of_mem _ hka)

theorem inputsOf_eq_of_nodup {g : Graph} (hnd : (g.map Prod.fst).Nodup) :
    ∀ p ∈ g, inputsOf g p.1 = p.2 := by
  induction g with
  | nil => intro p hp; cases hp
  | cons q rest ih =>
      intro p hp
      obtain ⟨k, is⟩ := q
      simp only [List.map_cons, List.nodup_cons] at hnd
      rcases List.mem_cons.mp hp with rfl | hp2
      · simp [inputsOf]
      · have hne : k ≠ p.1 := by
          intro heq
          exact hnd.1 (heq ▸ List.mem_map_of_mem Prod.fst hp2)
        simp only [inputsOf, if_neg hne]
        exact ih hnd.2 p hp2

theorem firstRejected_none {l : List (VSt α ε)}
    (h : ∀ s ∈ l, ∃ v, s = VSt.fulfilled v) : firstRejected l = none := by
  induction l with
  | nil => rfl
  | cons s rest ih =>
      obtain ⟨v, hv⟩ := h s (by simp)
      subst hv
      simp only [firstRejected]
      exact ih (fun t ht => h t (by simp [ht]))

theorem firstRejected_mem {l : List (VSt α ε)} {e : VErr ε}
    (h : firstRejected l = some e) : VSt.rejected e ∈ l := by
  induction l with
  | nil => cases h
  | cons s rest ih =>
      cases s with
      | fulfilled v =>
          simp only [firstRejected] at h
          exact List.mem_cons_of_mem _ (ih h)
      | rejected e2 =>
          simp only [firstRejected, Option.some.injEq] at h
          subst h
          exact List.mem_cons_self _ _

theorem firstRejected_isSome {l : List (VSt α ε)} {e : VErr ε}
    (h : VSt.rejected e ∈ l) : ∃ e2, firstRejected l = some e2 := by
  induction l with
  | nil => cases h
  | cons s rest ih =>
      cases s with
      | rejected e1 => exact ⟨e1, rfl⟩
      | fulfilled v =>
          rcases List.mem_cons.mp h with heq | hmem
          · simp at heq
          · simp only [firstRejected]
            exact ih hmem

theorem processClosure_inv {α ε : Type} (compute : Name → List α → Except ε α)
    (g : Graph) (origin : Name) (e0 : ε)
    (hc : ∀ n args, ∃ v, compute n args = Except.ok v)
    (hgi : ∀ p ∈ g, inputsOf g p.1 = p.2) :
    ∀ (nodes : List (Name × List Name)) (avail : List Name) (env : Name → VSt α ε),
      (∀ p ∈ nodes, p ∈ g) →
      TopoClosed avail nodes →
      origin ∈ avail →
      (∀ a ∈ avail, Pst g origin e0 env a) →
      (∀ a ∈ avail, Pst g origin e0 (processClosure compute nodes env) a) ∧
      (∀ p ∈ nodes, Pst g origin e0 (processClosure compute nodes env) p.1) := by
  intro nodes
  induction nodes with
  | nil =>
      intro avail env _ _ _ henv
      exact ⟨henv, fun p hp => absurd hp (List.not_mem_nil p)⟩
  | cons q rest ih =>
      intro avail env hsub htc hor henv
      obtain ⟨n, ins⟩ := q
      obtain ⟨hins, hnotin, htc2⟩ := htc
      have hqg : (n, ins) ∈ g := hsub (n, ins) (by simp)
      have hinputs : inputsOf g n = ins := hgi (n, ins) hqg
      have hno : n ≠ origin := fun h => hnotin (h ▸ hor)
      set env2 : Name → VSt α ε :=
        fun m => if m = n then (recomputeNode (ins.map env) (compute n)).1 else env m with henv2
      have hPn : Pst g origin e0 env2 n := by
        by_cases hreach : Reach g n origin
        · have hstep1 : ∃ i ∈ ins, i = origin ∨ Reach g i origin := by
            cases hreach with
            | single hab => exact ⟨origin, by rwa [hinputs] at hab, Or.inl rfl⟩
            | step hab hbc => exact ⟨_, by rwa [hinputs] at hab, Or.inr hbc⟩
          obtain ⟨i, hi, hio⟩ := hstep1
          have hrej : ∃ err, env i = VSt.rejected err := by
            have hP := henv i (hins i hi)
            rcases hio with rfl | hr
            · exact ⟨_, hP.1 rfl⟩
            · by_cases hioeq : i = origin
              · exact ⟨_, hP.1 hioeq⟩
              · obtain ⟨err, he, _, _⟩ := hP.2.1 hioeq hr
                exact ⟨err, he⟩
          obtain ⟨err0, henvi⟩ := hrej
          have hmm : VSt.rejected err0 ∈ ins.map env := List.mem_map.mpr ⟨i, hi, henvi⟩
          obtain ⟨errF, hF⟩ := firstRejected_isSome hmm
          obtain ⟨i2, hi2, hi2e⟩ := List.mem_map.mp (firstRejected_mem hF)
          have hrootF : rootErr errF = e0 := by
            have hP2 := henv i2 (hins i2 hi2)
            by_cases h2o : i2 = origin
            · have h2 := hP2.1 h2o
              rw [hi2e] at h2
              obtain rfl : errF = VErr.computeErr e0 := by
                simpa using h2
              rfl
            · by_cases h2r : Reach g i2 origin
              · obtain ⟨err, he, hroot, _⟩ := hP2.2.1 h2o h2r
                rw [hi2e] at he
                obtain rfl : errF = err := by simpa using he
                exact hroot
              · obtain ⟨v, hv⟩ := hP2.2.2 h2o h2r
                rw [hi2e] at hv
                simp at hv
          have hrn : (recomputeNode (ins.map env) (compute n)).1 =
              VSt.rejected (VErr.dependency errF) := by
            simp [recomputeNode, hF]
          refine ⟨fun h => absurd h hno,
                  fun _ _ => ⟨VErr.dependency errF, ?_, ?_, ⟨errF, rfl⟩⟩,
                  fun _ hnr => absurd hreach hnr⟩
          · show env2 n = _
            simp [henv2, hrn]
          · simpa [rootErr] using hrootF
        · have hallf : ∀ s ∈ ins.map env, ∃ v, s = VSt.fulfilled v := by
            intro s hs
            obtain ⟨i, hi, hie⟩ := List.mem_map.mp hs
            have hP := henv i (hins i hi)
            have hio : i ≠ origin := by
              rintro rfl
              exact hreach (Reach.single (hinputs ▸ hi))
            have hir : ¬ Reach g i origin := fun hr =>
              hreach (Reach.step (hinputs ▸ hi) hr)
            obtain ⟨v, hv⟩ := hP.2.2 hio hir
            exact ⟨v, by rw [← hie, hv]⟩
          obtain ⟨v, hv⟩ := hc n (valuesOf (ins.map env))
          have hrn : (recomputeNode (ins.map env) (compute n)).1 = VSt.fulfilled v := by
            simp [recomputeNode, firstRejected_none hallf, hv]
          refine ⟨fun h => absurd h hno, fun _ hr => absurd hr hreach, fun _ _ => ⟨v, ?_⟩⟩
          show env2 n = _
          simp [henv2, hrn]
      have hkeep : ∀ a ∈ avail, Pst g origin e0 env2 a := by
        intro a ha
        have han : a ≠ n := fun h => hnotin (h ▸ ha)
        exact Pst_congr (by simp [henv2, han]) (henv a ha)
      have hstep := ih (n :: avail) env2 (fun p hp => hsub p (List.mem_cons_of_mem _ hp))
        htc2 (List.mem_cons_of_mem _ hor)
        (by
          intro a ha
          rcases List.mem_cons.mp ha with rfl | ha2
          · exact hPn
          · exact hkeep a ha2)
      refine ⟨fun a ha => ?_, fun p hp => ?_⟩
      · exact hstep.1 a (List.mem_cons_of_mem _ ha)
      · rcases List.mem_cons.mp hp with heq | hp2
        · subst heq
          exact hstep.1 n (by simp)
        · exact hstep.2 p hp2

/-! ## Redefinition effect (spec §4.1 define, §8) -/

/-- Modelled from the spec (§2, §4.3): the direct dependents of a
Variable — the Variables whose inputs mention it. -/
def dependentsOf (g : Graph) (v : Name) : List Name :=
  (g.filter (fun p => v ∈ p.2)).map Prod.fst

/-- Modelled from the spec (§4.1): `define` stores the new Definition,
increments the Variable's generation, and enqueues its direct dependents
for recomputation. Returns the new generation table and the enqueued
recomputations. -/
def redefine (g : Graph) (gens : Name → Nat) (v : Name) : (Name → Nat) × List Name :=
  (fun m => if m = v then gens v + 1 else gens m, dependentsOf g v)

/-- Modelled from the spec (§3): the operations that bump a Variable's
generation — redefinition and recomputation. -/
inductive RtOp
  | redefineOp (v : Name)
  | recomputeOp (v : Name)

/-- Modelled from the spec (§3 invariant): both redefinition and
recomputation increment the target Variable's generation. -/
def applyOp (gens : Name → Nat) : RtOp → Name → Nat
  | .redefineOp v => fun m => if m = v then gens v + 1 else gens m
  | .recomputeOp v => fun m => if m = v then gens v + 1 else gens m

def applyOps (gens : Name → Nat) : List RtOp → Name → Nat
  | [] => gens
  | op :: rest => applyOps (applyOp gens op) rest

theorem applyOp_le (gens : Name → Nat) (op : RtOp) (m : Name) :
    gens m ≤ applyOp gens op m := by
  cases op with
  | redefineOp v =>
      simp only [applyOp]
      split
      · rename_i h
        subst h
        exact Nat.le_succ _
      · exact Nat.le_refl _
  | recomputeOp v =>
      simp only [applyOp]
      split
      · rename_i h
        subst h
        exact Nat.le_succ _
      · exact Nat.le_refl _

theorem applyOps_le (ops : List RtOp) (gens : Name → Nat) (m : Name) :
    gens m ≤ applyOps gens ops m := by
  induction ops generalizing gens with
  | nil => exact Nat.le_refl _
  | cons op rest ih => exact Nat.le_trans (applyOp_le gens op m) (ih (applyOp gens op))

theorem mem_dependentsOf {g : Graph} {v d : Name} (hk : (g.map Prod.fst).Nodup) :
    d ∈ dependentsOf g v ↔ d ∈ g.map Prod.fst ∧ v ∈ inputsOf g d := by
  constructor
  · intro h
    obtain ⟨p, hp, hp1⟩ := List.mem_map.mp h
    have hpg : p ∈ g := (List.mem_filter.mp hp).1
    have hpv : v ∈ p.2 := by
      have := (List.mem_filter.mp hp).2
      simpa using this
    refine ⟨hp1 ▸ List.mem_map_of_mem Prod.fst hpg, ?_⟩
    rw [← hp1, inputsOf_eq_of_nodup hk p hpg]
    exact hpv
  · rintro ⟨hd, hv⟩
    obtain ⟨p, hp, hp1⟩ := List.mem_map.mp hd
    refine List.mem_map.mpr ⟨p, List.mem_filter.mpr ⟨hp, ?_⟩, hp1⟩
    rw [← inputsOf_eq_of_nodup hk p hp, hp1]
    simpa using hv

theorem dependentsOf_nodup {g : Graph} (v : Name) (hk : (g.map Prod.fst).Nodup) :
    (dependentsOf g v).Nodup :=
  hk.sublist (List.Sublist.map Prod.fst (List.filter_sublist g))

/-! ## Dependency-ordered scheduling (spec §4.3 steps 3 and 4) -/

/-- Modelled from the spec (§4.3 step 3): a Variable is eligible to run
only once every one of its inputs within the closure has completed its
current round. -/
def eligible (closure : List (Name × List Name)) (done : List Name)
    (p : Name × List Name) : Bool :=
  p.2.all (fun i => decide (i ∉ closure.map Prod.fst) || decide (i ∈ done))

/-- Modelled from the spec (§4.3): a Kahn-style scheduling pass —
repeatedly run the first eligible not-yet-run Variable, recording the
completion order (most recent first), until none is eligible. -/
def kahnAux (closure : List (Name × List Name)) :
    Nat → List (Name × List Name) → List Name → List Name
  | 0, _, done => done
  | fuel + 1, remaining, done =>
      match remaining.find? (eligible closure done) with
      | none => done
      | some p => kahnAux closure fuel (remaining.erase p) (p.1 :: done)

def kahnRun (closure : List (Name × List Name)) : List Name :=
  kahnAux closure closure.length closure []

/-- The completion record (most recent first) respects dependency order:
each Variable's in-closure inputs all completed earlier. -/
def respects (closure : List (Name × List Name)) : List Name → Prop
  | [] => True
  | n :: rest =>
      (∀ i ∈ inputsOf closure n, i ∈ closure.map Prod.fst → i ∈ rest) ∧
        respects closure rest

theorem kahnAux_respects (closure : List (Name × List Name)) :
    ∀ (fuel : Nat) (remaining : List (Name × List Name)) (done : List Name),
      (∀ p ∈ remaining, inputsOf closure p.1 = p.2) →
      respects closure done →
      respects closure (kahnAux closure fuel remaining done) := by
  intro fuel
  induction fuel with
  | zero => intro remaining done _ hd; exact hd
  | succ k ih =>
      intro remaining done hrem hd
      simp only [kahnAux]
      cases hfind : remaining.find? (eligible closure done) with
      | none => exact hd
      | some p =>
          have hpmem : p ∈ remaining := List.mem_of_find?_eq_some hfind
          have hpel : eligible closure done p = true := List.find?_some hfind
          refine ih (remaining.erase p) (p.1 :: done)
            (fun q hq => hrem q (List.mem_of_mem_erase hq)) ⟨?_, hd⟩
          intro i hi hik
          rw [hrem p hpmem] at hi
          have hall := List.all_eq_true.mp hpel i hi
          simp only [Bool.or_eq_true, decide_eq_true_eq] at hall
          rcases hall with h | h
          · exact absurd hik h
          · exact h

/-! ## Definitions with display flags (spec §3) and the run pipeline -/

/-- Modelled from the spec (§3 Definition; runtime core missing from the
source): a cell Definition — output name, input names, compute function,
plus the behavioral display flags (`autodisplay`, `autoview`,
`automutable`). -/
structure Defn (α ε : Type) where
  output : Name
  inputs : List Name
  compute : List α → Except ε α
  autodisplay : Bool
  autoview : Bool
  automutable : Bool

/-- The scheduling-relevant projection of a Definition: everything except
the behavioral flags. -/
def Defn.core (d : Defn α ε) : Name × List Name × (List α → Except ε α) :=
  (d.output, d.inputs, d.compute)

/-- The dependency graph induced by a list of Definitions. -/
def graphOf (defs : List (Defn α ε)) : Graph :=
  defs.map (fun d => (d.output, d.inputs))

/-- One pass of recomputation over the Definitions in list order. -/
def processDefs : List (Defn α ε) → (Name → VSt α ε) → Name → VSt α ε
  | [], env => env
  | d :: rest, env =>
      processDefs rest
        (fun m => if m = d.output then (recomputeNode (d.inputs.map env) d.compute).1 else env m)

/-- Modelled from the spec (§4.3): the observable scheduling outcome of a
pass over a set of Definitions — the execution order, the per-Variable
recomputation count (the generation delta), and the committed states. -/
def runNotebook (defs : List (Defn α ε)) (env0 : Name → VSt α ε) :
    List Name × (Name → Nat) × (Name → VSt α ε) :=
  (kahnRun (graphOf defs),
   fun n => (kahnRun (graphOf defs)).count n,
   processDefs defs env0)

theorem processDefs_core_eq :
    ∀ (defs1 defs2 : List (Defn α ε)), defs1.map Defn.core = defs2.map Defn.core →
      ∀ env, processDefs defs1 env = processDefs defs2 env := by
  intro defs1
  induction defs1 with
  | nil =>
      intro defs2 h env
      cases defs2 with
      | nil => rfl
      | cons d2 rest2 => simp at h
  | cons d1 rest1 ih =>
      intro defs2 h env
      cases defs2 with
      | nil => simp at h
      | cons d2 rest2 =>
          simp only [List.map_cons, List.cons.injEq] at h
          obtain ⟨hc, hrest⟩ := h
          have ho : d1.output = d2.output := congrArg (fun c => c.1) hc
          have hi : d1.inputs = d2.inputs := congrArg (fun c => c.2.1) hc
          have hcomp : d1.compute = d2.compute := congrArg (fun c => c.2.2) hc
          simp only [processDefs]
          rw [ho, hi, hcomp]
          exact ih rest2 hrest _

theorem graphOf_core_eq {defs1 defs2 : List (Defn α ε)}
    (h : defs1.map Defn.core = defs2.map Defn.core) : graphOf defs1 = graphOf defs2 := by
  have h1 : graphOf defs1 = (defs1.map Defn.core).map (fun c => (c.1, c.2.1)) := by
    simp [graphOf, Defn.core, List.map_map, Function.comp_def]
  have h2 : graphOf defs2 = (defs2.map Defn.core).map (fun c => (c.1, c.2.1)) := by
    simp [graphOf, Defn.core, List.map_map, Function.comp_def]
  rw [h1, h2, h]

/-! ## Observer bridge side effects (source `observe`, databases/index.ts) -/

/-- The display side effects the source observer performs on the display
state's root element. -/
inductive DisplayAction (α ε : Type)
  | clearRoot
  | mapAssetsOn (v : α)
  | displayVal (v : α)
  | consoleError (e : ε)
  | displayErr (e : ε)
  deriving Repr

/-- Source `observe` (databases/index.ts lines 96-120): the handler's
reaction to one lifecycle transition, given the current `_error` flag.
`pending` clears the display only when recovering from an error;
`fulfilled` clears, maps assets (when assets are provided and the value is
an element) and displays — but only when `autodisplay` is set; `rejected`
logs the error, sets the error flag, clears and renders the error. -/
def observeHandle (autodisplay : Bool) (assets : Bool) (isElement : α → Bool)
    (errFlag : Bool) : Transition α ε → Bool × List (DisplayAction α ε)
  | .pending => if errFlag then (false, [.clearRoot]) else (errFlag, [])
  | .fulfilled v =>
      (errFlag,
       if autodisplay then
         .clearRoot ::
           ((if assets && isElement v then [.mapAssetsOn v] else []) ++ [.displayVal v])
       else [])
  | .rejected e => (true, [.consoleError e, .clearRoot, .displayErr e])

/-! ## Observer broadcast (spec §4.1 side effects, §4.4) -/

/-- Modelled from the spec (§4.1 side effects): one lifecycle transition is
broadcast to all currently registered observers, in registration order. -/
def broadcast (observers : List Name) (t : Transition α ε) : List (Name × Transition α ε) :=
  observers.map (fun o => (o, t))

/-- Modelled from the spec (§4.1, §4.4): the observer deliveries of one
committed recomputation — `pending` is broadcast before compute starts, and
on completion exactly one terminal transition (`fulfilled` on success,
`rejected` on failure) is broadcast. -/
def recomputeDeliveries (observers : List Name) (result : Except ε α) :
    List (Name × Transition α ε) :=
  broadcast observers Transition.pending ++ broadcast observers (terminalOf result)

/-- The sub-sequence of transitions delivered to one observer. -/
def deliveriesTo (o : Name) (ds : List (Name × Transition α ε)) : List (Transition α ε) :=
  (ds.filter (fun d => d.1 == o)).map Prod.snd

theorem filter_beq_of_nodup {l : List Name} {o : Name} (hn : l.Nodup) (ho : o ∈ l) :
    l.filter (fun x => x == o) = [o] := by
  induction l with
  | nil => cases ho
  | cons a t ih =>
      have ha := List.nodup_cons.mp hn
      by_cases hao : a = o
      · subst hao
        have hft : t.filter (fun x => x == a) = [] := by
          apply List.filter_eq_nil_iff.mpr
          intro x hx
          simp only [beq_iff_eq]
          intro hxa
          exact ha.1 (hxa ▸ hx)
        simp [List.filter_cons, hft]
      · have hot : o ∈ t := by
          rcases List.mem_cons.mp ho with h | h
          · exact absurd h.symm hao
          · exact h
        have hrec := ih ha.2 hot
        simp [List.filter_cons, hao, hrec]

end Runtime

/-! ## Claim theorems for the runtime (staleness, observers, coalescing) -/

open Runtime

/-- C1: staleness discard — once a Variable has been invalidated or
redefined again, a computation that captured any earlier generation is
discarded when it settles: it changes neither the Variable's state nor
the deliveries of the whole trace. A computation settling with the current
generation is committed and delivered. -/
theorem runtime_staleness_discard {α ε : Type} (s : VarState α ε)
    (pre post : List (VarEvent α ε)) (tag : Nat) (r r' : Except ε α)
    (htag : tag ≤ s.generation) :
    varRun s (pre ++ VarEvent.redefine :: VarEvent.settle tag r :: post) =
      varRun s (pre ++ VarEvent.redefine :: post) ∧
    varStep s (VarEvent.settle s.generation r') =
      ({ s with value := some r' }, [terminalOf r']) := by
  constructor
  · have hmono : s.generation ≤ (varRun s pre).1.generation := generation_le_varRun pre s
    have hne : tag ≠ ((varRun s pre).1.generation + 1) := by omega
    rw [varRun_append, varRun_append]
    simp [varRun, varStep, hne]
  · simp [varStep]

theorem runtime_staleness_discard_witness :
    varRun (⟨0, none⟩ : VarState Nat Unit)
        [VarEvent.redefine, VarEvent.settle 0 (Except.ok 7)] =
      varRun (⟨0, none⟩ : VarState Nat Unit) [VarEvent.redefine] ∧
    varStep (⟨0, none⟩ : VarState Nat Unit) (VarEvent.settle 0 (Except.ok 7)) =
      (⟨0, some (Except.ok 7)⟩, [Transition.fulfilled 7]) :=
  runtime_staleness_discard ⟨0, none⟩ [] [] 0 (Except.ok 7) (Except.ok 7) (Nat.le_refl 0)

/-- C3: observer call contract — for each committed recomputation, every
registered observer receives exactly the sequence `pending` followed by one
terminal transition (which is a `fulfilled` or a `rejected`, never another
`pending`), and each of the two broadcasts visits all currently registered
observers in registration order. -/
theorem runtime_observer_contract {α ε : Type} (observers : List Name)
    (r : Except ε α) (o : Name) (hn : observers.Nodup) (ho : o ∈ observers) :
    deliveriesTo o (recomputeDeliveries observers r) = [Transition.pending, terminalOf r] ∧
    ((∃ v, terminalOf r = Transition.fulfilled v) ∨
      (∃ e, terminalOf r = Transition.rejected e)) ∧
    (recomputeDeliveries observers r).map Prod.fst = observers ++ observers := by
  refine ⟨?_, ?_, ?_⟩
  · simp only [deliveriesTo, recomputeDeliveries, broadcast, List.filter_append,
      List.map_append, List.filter_map]
    have h1 := filter_beq_of_nodup hn ho
    simp [Function.comp_def, h1]
  · cases r with
    | ok v => exact Or.inl ⟨v, rfl⟩
    | error e => exact Or.inr ⟨e, rfl⟩
  · simp [recomputeDeliveries, broadcast, Function.comp_def]

theorem runtime_observer_contract_witness :
    deliveriesTo "a" (recomputeDeliveries ["a", "b"] (Except.ok (37 : Nat) (ε := Unit))) =
      [Transition.pending, Transition.fulfilled 37] ∧
    ((∃ v, terminalOf (Except.ok (37 : Nat) (ε := Unit)) = Transition.fulfilled v) ∨
      (∃ e, terminalOf (Except.ok (37 : Nat) (ε := Unit)) = Transition.rejected e)) ∧
    (recomputeDeliveries ["a", "b"] (Except.ok (37 : Nat) (ε := Unit))).map Prod.fst =
      ["a", "b"] ++ ["a", "b"] := by
  have h := runtime_observer_contract ["a", "b"] (Except.ok (37 : Nat) (ε := Unit)) "a"
    (by decide) (by decide)
  exact ⟨h.1, h.2.1, h.2.2⟩

/-- C2: cycle detection is exact and atomic — a define reports a
`CyclicDefinitionError` exactly when the inserted definition makes the new
Variable reachable from itself through input edges; on failure the Graph is
returned unchanged (atomic failure); on success the Graph is exactly the
inserted one; and across any acyclic definition sequence no call ever
raises the error. -/
theorem graph_cycle_detection (g : Graph) (n : Name) (ins : List Name)
    (defs : List (Name × List Name)) :
    ((defineVar g n ins).2.isSome ↔ Reach (insertDef g n ins) n n) ∧
    ((defineVar g n ins).2.isSome → (defineVar g n ins).1 = g) ∧
    ((defineVar g n ins).2 = none → (defineVar g n ins).1 = insertDef g n ins) ∧
    (AcyclicSeq g defs → ∀ e ∈ (defineRun g defs).2, e = none) := by
  refine ⟨?_, ?_, ?_, acyclicSeq_no_error defs g⟩
  · constructor
    · intro h
      by_cases hb : reachesB (insertDef g n ins) n n
      · exact reachesB_iff.mp hb
      · simp [defineVar, hb] at h
    · intro h
      have hb : reachesB (insertDef g n ins) n n = true := reachesB_iff.mpr h
      simp [defineVar, hb]
  · intro h
    by_cases hb : reachesB (insertDef g n ins) n n
    · simp [defineVar, hb]
    · simp [defineVar, hb] at h
  · intro h
    by_cases hb : reachesB (insertDef g n ins) n n
    · simp [defineVar, hb] at h
    · simp [defineVar, hb]

theorem graph_cycle_detection_witness :
    (defineVar [] "c" ["c"]).2.isSome ∧
    (defineVar [] "c" ["c"]).1 = [] ∧
    (∀ e ∈ (defineRun [] [("a", []), ("b", ["a"])]).2, e = none) := by
  have h := graph_cycle_detection [] "c" ["c"] [("a", []), ("b", ["a"])]
  have hr : Reach (insertDef [] "c" ["c"]) "c" "c" :=
    Reach.single (by simp [insertDef, inputsOf])
  have h1 : (defineVar [] "c" ["c"]).2.isSome := h.1.mpr hr
  have hA : ¬ Reach (insertDef [] "a" []) "a" "a" :=
    not_reach_of_no_inputs (by simp [insertDef, inputsOf])
  have hB : ¬ Reach (insertDef (insertDef [] "a" []) "b" ["a"]) "b" "b" := by
    intro hreach
    have hno : inputsOf (insertDef (insertDef [] "a" []) "b" ["a"]) "a" = [] := by
      simp [insertDef, inputsOf]
    cases hreach with
    | single hab => simp [insertDef, inputsOf] at hab
    | step hab hbc =>
        simp [insertDef, inputsOf] at hab
        subst hab
        exact not_reach_of_no_inputs hno hbc
  exact ⟨h1, h.2.1 h1, h.2.2.2 ⟨hA, hB, trivial⟩⟩

/-- C4: rejection propagation — a Variable with a rejected input
transitions directly to `rejected` with a dependency error wrapping that
input's error, without invoking its `compute` function; and after one
scheduling pass over a dependency-ordered closure whose only failing
Variable is the origin, every transitive dependent of the origin is
rejected with a `DependencyError` wrapping (ultimately) the origin's
error. -/
theorem runtime_rejection_propagation {α ε : Type} (g : Graph) (origin : Name) (e0 : ε)
    (compute : Name → List α → Except ε α) (env0 : Name → VSt α ε)
    (htopo : TopoClosed [origin] g)
    (horigin : env0 origin = VSt.rejected (VErr.computeErr e0))
    (hc : ∀ n args, ∃ v, compute n args = Except.ok v) :
    (∀ (inputs : List (VSt α ε)) (f : List α → Except ε α) (e : VErr ε),
      firstRejected inputs = some e →
      recomputeNode inputs f = (VSt.rejected (VErr.dependency e), false)) ∧
    (∀ m, m ∈ g.map Prod.fst → Reach g m origin →
      ∃ err, processClosure compute g env0 m = VSt.rejected err ∧
        rootErr err = e0 ∧ ∃ inner, err = VErr.dependency inner) := by
  constructor
  · intro inputs f e h
    simp [recomputeNode, h]
  · intro m hm hreach
    obtain ⟨hnd, hdisj⟩ := topoClosed_keys htopo
    have hgi := inputsOf_eq_of_nodup hnd
    have hP0 : ∀ a ∈ ([origin] : List Name), Pst g origin e0 env0 a := by
      intro a ha
      rw [List.mem_singleton] at ha
      subst ha
      exact ⟨fun _ => horigin, fun h _ => absurd rfl h, fun h _ => absurd rfl h⟩
    have hinv := processClosure_inv compute g origin e0 hc hgi g [origin] env0
      (fun p hp => hp) htopo (by simp) hP0
    obtain ⟨p, hp, hp1⟩ := List.mem_map.mp hm
    have hP := hinv.2 p hp
    rw [hp1] at hP
    have hmo : m ≠ origin := fun h => hdisj m hm (by simp [h])
    exact hP.2.1 hmo hreach

theorem runtime_rejection_propagation_witness :
    recomputeNode [VSt.rejected (VErr.computeErr (0 : Nat))]
        (fun _ : List Nat => Except.ok 1) =
      (VSt.rejected (VErr.dependency (VErr.computeErr 0)), false) ∧
    (∃ err, processClosure (fun _ _ => Except.ok 1) [("x", ["o"]), ("y", ["x"])]
        (fun m => if m = "o" then VSt.rejected (VErr.computeErr (0 : Nat))
                  else VSt.fulfilled (1 : Nat)) "y" =
        VSt.rejected err ∧ rootErr err = 0 ∧ ∃ inner, err = VErr.dependency inner) := by
  have h := runtime_rejection_propagation [("x", ["o"]), ("y", ["x"])] "o" 0
    (fun _ _ => Except.ok 1)
    (fun m => if m = "o" then VSt.rejected (VErr.computeErr 0) else VSt.fulfilled 1)
    (by simp [TopoClosed]) (by simp) (fun n args => ⟨1, rfl⟩)
  refine ⟨h.1 _ _ _ rfl, h.2 "y" (by simp) ?_⟩
  exact Reach.step (a := "y") (b := "x") (by simp [inputsOf])
    (Reach.single (by simp [inputsOf]))

/-- C5: redefinition effect — redefining a Variable strictly increases its
generation; the generation counter is monotone across any sequence of
redefinitions and recomputations; and a redefinition enqueues exactly one
recomputation of each direct dependent and none of any other Variable. -/
theorem runtime_redefine_effect (g : Graph) (gens : Name → Nat) (v : Name)
    (ops : List RtOp) (hk : (g.map Prod.fst).Nodup) :
    gens v < (redefine g gens v).1 v ∧
    (∀ m, gens m ≤ applyOps gens ops m) ∧
    (∀ d, d ∈ g.map Prod.fst ∧ v ∈ inputsOf g d → (redefine g gens v).2.count d = 1) ∧
    (∀ d, ¬ (d ∈ g.map Prod.fst ∧ v ∈ inputsOf g d) → (redefine g gens v).2.count d = 0) := by
  refine ⟨?_, fun m => applyOps_le ops gens m, ?_, ?_⟩
  · have h1 : (redefine g gens v).1 v = gens v + 1 := by simp [redefine]
    omega
  · intro d hd
    exact List.count_eq_one_of_mem (dependentsOf_nodup v hk) ((mem_dependentsOf hk).mpr hd)
  · intro d hd
    exact List.count_eq_zero.mpr (fun hmem => hd ((mem_dependentsOf hk).mp hmem))

theorem runtime_redefine_effect_witness :
    (fun _ : Name => 0) "a" < (redefine [("b", ["a"])] (fun _ => 0) "a").1 "a" ∧
    (∀ m, (fun _ : Name => 0) m ≤ applyOps (fun _ => 0) [RtOp.redefineOp "a"] m) ∧
    (∀ d, d ∈ ([("b", ["a"])] : Graph).map Prod.fst ∧ "a" ∈ inputsOf [("b", ["a"])] d →
      (redefine [("b", ["a"])] (fun _ => 0) "a").2.count d = 1) ∧
    (∀ d, ¬ (d ∈ ([("b", ["a"])] : Graph).map Prod.fst ∧ "a" ∈ inputsOf [("b", ["a"])] d) →
      (redefine [("b", ["a"])] (fun _ => 0) "a").2.count d = 0) :=
  runtime_redefine_effect [("b", ["a"])] (fun _ => 0) "a" [RtOp.redefineOp "a"] (by decide)

/-- C6: dependency-order execution — the eligibility test passes exactly
when every one of the Variable's inputs within the closure has settled for
the current round, and the completion order produced by a scheduling pass
respects dependencies: every Variable ran only after all of its in-closure
inputs had completed, so no dependent ever reads a half-updated input. -/
theorem runtime_dependency_order (closure : List (Name × List Name)) (done : List Name)
    (p : Name × List Name) (hk : (closure.map Prod.fst).Nodup) :
    (eligible closure done p = true ↔
      ∀ i ∈ p.2, i ∈ closure.map Prod.fst → i ∈ done) ∧
    respects closure (kahnRun closure) := by
  constructor
  · simp only [eligible, List.all_eq_true, Bool.or_eq_true, decide_eq_true_eq]
    constructor
    · intro h i hi hik
      rcases h i hi with h1 | h1
      · exact absurd hik h1
      · exact h1
    · intro h i hi
      by_cases hik : i ∈ closure.map Prod.fst
      · exact Or.inr (h i hi hik)
      · exact Or.inl hik
  · exact kahnAux_respects closure closure.length closure []
      (fun q hq => inputsOf_eq_of_nodup hk q hq) trivial

theorem runtime_dependency_order_witness :
    (eligible [("a", []), ("b", ["a"])] [] ("a", ([] : List Name)) = true ↔
      ∀ i ∈ ([] : List Name), i ∈ ([("a", []), ("b", ["a"])] : List (Name × List Name)).map Prod.fst → i ∈ ([] : List Name)) ∧
    respects [("a", []), ("b", ["a"])] (kahnRun [("a", []), ("b", ["a"])]) :=
  runtime_dependency_order [("a", []), ("b", ["a"])] [] ("a", []) (by decide)

/-- C8: scheduling noninterference of display flags — two Definition lists
that agree on everything except the behavioral flags (`autodisplay`,
`autoview`, `automutable`) produce identical scheduling outcomes (same
execution order, same recomputation counts, same committed states); and in
the source observer handler the flags influence only the side effects
performed on fulfillment — the `pending` and `rejected` reactions are
independent of them. -/
theorem runtime_flag_noninterference {α ε : Type} (defs1 defs2 : List (Defn α ε))
    (env0 : Name → VSt α ε) (h : defs1.map Defn.core = defs2.map Defn.core) :
    runNotebook defs1 env0 = runNotebook defs2 env0 ∧
    (∀ (a1 a2 s1 s2 : Bool) (isE : α → Bool) (errFlag : Bool) (e : ε),
      observeHandle a1 s1 isE errFlag (Transition.pending (α := α) (ε := ε)) =
        observeHandle a2 s2 isE errFlag Transition.pending ∧
      observeHandle a1 s1 isE errFlag (Transition.rejected e) =
        observeHandle a2 s2 isE errFlag (Transition.rejected e)) := by
  constructor
  · have hg := graphOf_core_eq h
    have hp := processDefs_core_eq defs1 defs2 h env0
    simp [runNotebook, hg, hp]
  · intro a1 a2 s1 s2 isE errFlag e
    exact ⟨rfl, rfl⟩

theorem runtime_flag_noninterference_witness :
    runNotebook [(⟨"a", [], fun _ => Except.ok 0, true, true, true⟩ : Defn Nat Unit)]
        (fun _ => VSt.fulfilled 0) =
      runNotebook [(⟨"a", [], fun _ => Except.ok 0, false, false, false⟩ : Defn Nat Unit)]
        (fun _ => VSt.fulfilled 0) ∧
    observeHandle true true (fun _ : Nat => true) false
        (Transition.pending (α := Nat) (ε := Unit)) =
      observeHandle false false (fun _ : Nat => true) false Transition.pending ∧
    observeHandle true true (fun _ : Nat => true) false
        (Transition.rejected (α := Nat) ()) =
      observeHandle false false (fun _ : Nat => true) false (Transition.rejected ()) := by
  have h := runtime_flag_noninterference
    [(⟨"a", [], fun _ => Except.ok 0, true, true, true⟩ : Defn Nat Unit)]
    [(⟨"a", [], fun _ => Except.ok 0, false, false, false⟩ : Defn Nat Unit)]
    (fun _ => VSt.fulfilled 0) rfl
  have h2 := h.2 true false true false (fun _ : Nat => true) false ()
  exact ⟨h.1, h2.1, h2.2⟩

/-- C7: invalidation coalescing — starting from a deduplicated pending set,
invalidating a Variable leaves the set deduplicated with the Variable
enqueued exactly once; invalidating a Variable already pending leaves the
set unchanged, and invalidating twice is the same as invalidating once. -/
theorem runtime_invalidate_coalesces (p : List Name) (v : Name) (hp : p.Nodup) :
    (invalidate p v).Nodup ∧
    (invalidate p v).count v = 1 ∧
    (v ∈ p → invalidate p v = p) ∧
    invalidate (invalidate p v) v = invalidate p v := by
  by_cases hv : v ∈ p
  · have heq : invalidate p v = p := by simp [invalidate, hv]
    refine ⟨?_, ?_, fun _ => heq, ?_⟩
    · rw [heq]; exact hp
    · rw [heq, List.count_eq_one_of_mem hp hv]
    · rw [heq]; exact heq
  · have heq : invalidate p v = p ++ [v] := by simp [invalidate, hv]
    refine ⟨?_, ?_, fun h => absurd h hv, ?_⟩
    · rw [heq]
      refine List.Nodup.append hp (List.nodup_singleton v) ?_
      simp [List.disjoint_singleton, hv]
    · rw [heq, List.count_append, List.count_eq_zero.mpr hv]
      simp
    · simp [invalidate, hv]

theorem runtime_invalidate_coalesces_witness :
    (invalidate ["x"] "y").Nodup ∧
    (invalidate ["x"] "y").count "y" = 1 ∧
    ("y" ∈ (["x"] : List Name) → invalidate ["x"] "y" = ["x"]) ∧
    invalidate (invalidate ["x"] "y") "y" = invalidate ["x"] "y" :=
  runtime_invalidate_coalesces ["x"] "y" (by decide)

end NotebookKit
